import Mathlib

/-!
# Verification of the dependency-graph reduction engine

Shallow embedding of `src/create_dependency.py` (and the variants in
`src/tools/create_dependency.py` and `src/tools/auto_clean_dependencies.py`)
from the `odoo-dependency-trimmer` repository, together with proofs and
refutations of the specification's claims about it.

The Python code recurses without any depth bound, so every recursive
procedure is embedded with an explicit `fuel` parameter bounding the
recursion depth; a result of `none` means the recursion exceeded the given
depth.  A computation diverges in Python exactly when its embedding returns
`none` for every fuel value.
-/

namespace DepTrim

/-- A dependency graph, as built by `_read_deps`: a finite mapping from a
module name to the ordered list of its direct dependencies
(`{'module_name': ['dependency_one', 'dependency_two']}`).  Represented as
an association list; lookup takes the first matching key, which coincides
with Python `dict` semantics (a `dict` cannot hold a key twice). -/
abbrev Graph := List (String × List String)

/-- `deps.get(module, [])`: the direct dependencies of `m`, or `[]` when
`m` is not a key of the graph. -/
def getDeps (g : Graph) (m : String) : List String :=
  match g.find? (fun p => p.1 == m) with
  | some p => p.2
  | none => []

/-- The `for dependency in deps.get(module, [])` loop of `_update_deps`,
threading the mutable sets `met` and `used` through the iterations; `f` is
the recursive call `_update_deps(deps, dependency, met, used)`.  A
dependency currently in `used` is removed from `used`; any other dependency
is recursed into via `f`. -/
def runDeps (f : String → Finset String → Finset String →
    Option (Finset String × Finset String)) :
    List String → Finset String → Finset String →
    Option (Finset String × Finset String)
  | [], met, used => some (met, used)
  | d :: rest, met, used =>
      if d ∈ used then
        runDeps f rest met (used.erase d)
      else
        match f d met used with
        | none => none
        | some (met2, used2) => runDeps f rest met2 used2

/-- Embedding of `_update_deps(deps, module, met, used)`
(src/create_dependency.py lines 24-31).  It adds `module` to `met` and then
runs the dependency loop.  `fuel` bounds the recursion depth; `none` models
a `RecursionError` (divergence). -/
def updateDeps (g : Graph) : Nat → String → Finset String → Finset String →
    Option (Finset String × Finset String)
  | 0, _, _, _ => none
  | fuel + 1, module, met, used =>
      runDeps (fun d met2 used2 => updateDeps g fuel d met2 used2)
        (getDeps g module) (insert module met) used

/-- The `for module in modules` loop of `_minimum_dep_tree`
(src/create_dependency.py lines 39-42), threading `met` and `used`. -/
def minimumGo (g : Graph) (fuel : Nat) :
    List String → Finset String → Finset String → Option (Finset String)
  | [], _, used => some used
  | m :: rest, met, used =>
      if m ∉ used ∧ m ∉ met then
        match updateDeps g fuel m met (insert m used) with
        | none => none
        | some (met2, used2) => minimumGo g fuel rest met2 used2
      else
        minimumGo g fuel rest met used

/-- Embedding of `_minimum_dep_tree(dep_tree, modules)`
(src/create_dependency.py lines 34-43): the reducer `reduce(G, M)`. -/
def minimumDepTree (g : Graph) (fuel : Nat) (modules : List String) :
    Option (Finset String) :=
  minimumGo g fuel modules ∅ ∅

/-- The `for dep in tree.get(start, [])` loop of `_min_path`; `f` is the
recursive call `_min_path(tree, dep, end, next_path)`.  Returned paths are
always nonempty, so Python's truthiness test `if min_path:` coincides with
the inner `Option` being `some`. -/
def runPath (f : String → List String → Option (Option (List String))) :
    List String → String → List String → Option (Option (List String))
  | [], _, _ => some none
  | dep :: rest, stop, curPath =>
      if dep == stop then some (some (curPath ++ [dep]))
      else
        match f dep (curPath ++ [dep]) with
        | none => none
        | some (some p) => some (some p)
        | some none => runPath f rest stop curPath

/-- Embedding of `_min_path(tree, start, end, current_path)`
(src/create_dependency.py lines 69-80), identical to `_first_path` in
src/tools/create_dependency.py and src/tools/auto_clean_dependencies.py.
The outer `Option` models divergence (`none` = recursion depth exceeded);
the inner `Option` is the function's own `None`-for-no-path result. -/
def minPath (g : Graph) : Nat → String → String → List String →
    Option (Option (List String))
  | 0, _, _, _ => none
  | fuel + 1, start, stop, curPath =>
      if start == stop then some (some curPath)
      else
        runPath (fun d p => minPath g fuel d stop p)
          (getDeps g start) stop curPath

/-- A top-level `_min_path(tree, a, b)` call: `current_path` defaults to
`[start]` (the `current_path = current_path or [start]` line). -/
def minPathTop (g : Graph) (fuel : Nat) (start stop : String) :
    Option (Option (List String)) :=
  minPath g fuel start stop [start]

/-- The ordered index pairs `(ms[i], ms[j])` for `i, j in range(len(ms))`,
as enumerated by `_min_spanning_tree` in src/create_dependency.py
(whose `if i != j` guard is commented out). -/
def allPairs (ms : List String) : List (String × String) :=
  (List.range ms.length).flatMap fun i =>
    (List.range ms.length).map fun j => (ms.getD i "", ms.getD j "")

/-- The ordered index pairs with `i != j`, as enumerated by the
`_min_spanning_tree` variants in src/tools/create_dependency.py and
src/tools/auto_clean_dependencies.py. -/
def allPairsNoSelf (ms : List String) : List (String × String) :=
  (List.range ms.length).flatMap fun i =>
    (List.range ms.length).filterMap fun j =>
      if i = j then none else some (ms.getD i "", ms.getD j "")

/-- The `all_paths` accumulation loop: run `_min_path` on every pair,
keeping the found paths in order; `none` if any search diverges. -/
def collectPaths (g : Graph) (fuel : Nat) :
    List (String × String) → Option (List (List String))
  | [] => some []
  | (a, b) :: rest =>
      match minPathTop g fuel a b with
      | none => none
      | some none => collectPaths g fuel rest
      | some (some p) =>
          match collectPaths g fuel rest with
          | none => none
          | some l => some (p :: l)

/-- The consecutive-pair edges `(p[i], p[i+1])` of a path, added to the
forest by the `for i in range(len(p) - 1)` loop. -/
def pathEdges : List String → List (String × String)
  | a :: b :: rest => (a, b) :: pathEdges (b :: rest)
  | _ => []

/-- The keys `p[i]` for `i in range(len(p) - 1)` that the defaultdict
access `rtn[p[i]]` creates. -/
def pathKeys : List String → List String
  | a :: b :: rest => a :: pathKeys (b :: rest)
  | _ => []

/-- The forest mapping `rtn` built by `_min_spanning_tree`: its key set and
its parent-to-child edge set.  The child set of a key `k` is
`{c | (k, c) ∈ edges}`, so this carries exactly the information of the
Python `defaultdict(set)`. -/
structure Forest where
  keys : Finset String
  edges : Finset (String × String)
deriving DecidableEq

/-- `rtn = defaultdict(set); rtn.update({x: set() for x in modules})`
followed by adding every consecutive pair of every found path. -/
def buildForest (modules : List String) (paths : List (List String)) : Forest :=
  { keys := modules.toFinset ∪ (paths.flatMap pathKeys).toFinset
    edges := (paths.flatMap pathEdges).toFinset }

/-- The root set
`{x for x in rtn if not any(x in values for values in rtn.values())}`
(src/create_dependency.py line 103): the keys that appear in no child set,
i.e. are no edge's target. -/
def forestRoots (f : Forest) : Finset String :=
  f.keys.filter (fun x => x ∉ f.edges.image Prod.snd)

/-- Embedding of `_min_spanning_tree(dep_tree, modules)`
(src/create_dependency.py lines 89-105): the variant whose `i != j` guard
is commented out. -/
def minSpanningTree (g : Graph) (fuel : Nat) (modules : List String) :
    Option Forest :=
  (collectPaths g fuel (allPairs modules)).map (buildForest modules)

/-- Embedding of the `_min_spanning_tree` variants in
src/tools/create_dependency.py (lines 108-124) and
src/tools/auto_clean_dependencies.py (lines 109-131), which keep the
`if i != j` guard. -/
def minSpanningTreeNoSelf (g : Graph) (fuel : Nat) (modules : List String) :
    Option Forest :=
  (collectPaths g fuel (allPairsNoSelf modules)).map (buildForest modules)

/-! ## Graph-theoretic reachability

Walks in the embedded graph, used to state properties about the code.
`IsWalk g a l` says that starting from `a` the successive elements of `l`
each follow one edge of `g`. -/

def IsWalk (g : Graph) : String → List String → Prop
  | _, [] => True
  | a, b :: rest => b ∈ getDeps g a ∧ IsWalk g b rest

/-- The endpoint of the walk `a :: l`. -/
def walkTarget (a : String) (l : List String) : String :=
  l.getLastD a

/-- `b` is reachable from `a` by zero or more edges. -/
def ReachRefl (g : Graph) (a b : String) : Prop :=
  ∃ l, IsWalk g a l ∧ walkTarget a l = b

/-- `b` is reachable from `a` by at least one edge (a proper descendant;
for `a = b` this says `a` lies on a cycle). -/
def ProperReach (g : Graph) (a b : String) : Prop :=
  ∃ l, l ≠ [] ∧ IsWalk g a l ∧ walkTarget a l = b

/-- The specification's `reachable(graph, start)` contract (§4.1), written
from the spec's words: every node transitively reachable from `start` by
following edges, `start` itself included only when it is reachable from
itself.  Implemented as a standard visited-set worklist so that it is
total; `fuel` only needs to exceed the number of edges explored. -/
def specReachAux (g : Graph) : Nat → List String → Finset String → Finset String
  | 0, _, vis => vis
  | _ + 1, [], vis => vis
  | fuel + 1, n :: rest, vis =>
      if n ∈ vis then specReachAux g fuel rest vis
      else specReachAux g fuel (getDeps g n ++ rest) (insert n vis)

/-- `reachable(graph, start)` per the spec's §4.1 contract. -/
def specReachable (g : Graph) (fuel : Nat) (start : String) : Finset String :=
  specReachAux g fuel (getDeps g start) ∅

/-- The union over `m` in `l` of `{m} ∪ reachable(G, m)`, the quantity the
spec's closure-equivalence property (§8) compares. -/
def specClosureUnion (g : Graph) (fuel : Nat) (l : List String) : Finset String :=
  l.foldl (fun acc m => acc ∪ insert m (specReachable g fuel m)) ∅

/-- All edge targets of the graph: every node a walk can visit. -/
def depTargets (g : Graph) : List String :=
  g.flatMap (fun p => p.2)

/-- The invariant the `_minimum_dep_tree` loop maintains over its two sets
whenever it terminates: `used` is contained in `met`; no `used` member is
properly reachable from another (or from itself); nothing reachable from a
`used` member lies on a cycle; and everything properly reachable from a
`used` member has been visited. -/
structure Inv (g : Graph) (met used : Finset String) : Prop where
  usedMet : used ⊆ met
  antichain : ∀ u ∈ used, ∀ z, ProperReach g u z → z ∉ used
  acyclic : ∀ u ∈ used, ∀ z, ReachRefl g u z → ¬ ProperReach g z z
  cover : ∀ u ∈ used, ∀ z, ProperReach g u z → z ∈ met

/-! ## Basic lemmas about the traversal

`met` only grows and `used` only shrinks during `_update_deps`. -/

theorem runDeps_mono {f : String → Finset String → Finset String →
    Option (Finset String × Finset String)}
    (hf : ∀ d met used r, f d met used = some r → met ⊆ r.1 ∧ r.2 ⊆ used) :
    ∀ ds met used r, runDeps f ds met used = some r → met ⊆ r.1 ∧ r.2 ⊆ used := by
  intro ds
  induction ds with
  | nil =>
      intro met used r h
      simp only [runDeps] at h
      cases h
      exact ⟨Finset.Subset.refl _, Finset.Subset.refl _⟩
  | cons d rest ih =>
      intro met used r h
      simp only [runDeps] at h
      by_cases hd : d ∈ used
      · simp only [hd, if_true] at h
        obtain ⟨h1, h2⟩ := ih _ _ _ h
        exact ⟨h1, h2.trans (Finset.erase_subset _ _)⟩
      · simp only [hd, if_false] at h
        cases hfd : f d met used with
        | none => rw [hfd] at h; cases h
        | some r2 =>
            rw [hfd] at h
            obtain ⟨h1, h2⟩ := hf _ _ _ _ hfd
            obtain ⟨h3, h4⟩ := ih _ _ _ h
            exact ⟨h1.trans h3, h4.trans h2⟩

theorem updateDeps_mono (g : Graph) :
    ∀ fuel m met used r, updateDeps g fuel m met used = some r →
      insert m met ⊆ r.1 ∧ r.2 ⊆ used := by
  intro fuel
  induction fuel with
  | zero => intro m met used r h; simp [updateDeps] at h
  | succ fuel ih =>
      intro m met used r h
      simp only [updateDeps] at h
      exact runDeps_mono (fun d met2 used2 r2 hr =>
        ⟨(Finset.subset_insert d met2).trans (ih d met2 used2 r2 hr).1,
         (ih d met2 used2 r2 hr).2⟩) _ _ _ _ h

/-- `used` never grows during the traversal. -/
theorem updateDeps_used_subset (g : Graph) {fuel : Nat} {m : String}
    {met used : Finset String} {r : Finset String × Finset String}
    (h : updateDeps g fuel m met used = some r) : r.2 ⊆ used :=
  (updateDeps_mono g fuel m met used r h).2

/-- `met` never shrinks during the traversal. -/
theorem updateDeps_met_subset (g : Graph) {fuel : Nat} {m : String}
    {met used : Finset String} {r : Finset String × Finset String}
    (h : updateDeps g fuel m met used = some r) : met ⊆ r.1 :=
  (Finset.subset_insert m met).trans (updateDeps_mono g fuel m met used r h).1

/-- Results established with one fuel value persist at higher fuel: the
dependency loop is monotone in its recursive call. -/
theorem runDeps_congr {f f2 : String → Finset String → Finset String →
    Option (Finset String × Finset String)}
    (hff : ∀ d met used r, f d met used = some r → f2 d met used = some r) :
    ∀ ds met used r, runDeps f ds met used = some r →
      runDeps f2 ds met used = some r := by
  intro ds
  induction ds with
  | nil => intro met used r h; exact h
  | cons d rest ih =>
      intro met used r h
      simp only [runDeps] at h ⊢
      by_cases hd : d ∈ used
      · rw [if_pos hd] at h ⊢
        exact ih _ _ _ h
      · rw [if_neg hd] at h ⊢
        cases hfd : f d met used with
        | none => rw [hfd] at h; cases h
        | some r2 =>
            rw [hfd] at h
            rw [hff _ _ _ _ hfd]
            exact ih _ _ _ h

/-- More fuel never changes a successful traversal. -/
theorem updateDeps_fuel_succ (g : Graph) :
    ∀ fuel m met used r, updateDeps g fuel m met used = some r →
      updateDeps g (fuel + 1) m met used = some r := by
  intro fuel
  induction fuel with
  | zero => intro m met used r h; cases h
  | succ fuel ih =>
      intro m met used r h
      simp only [updateDeps] at h ⊢
      exact runDeps_congr (fun d met2 used2 r2 hr => ih d met2 used2 r2 hr)
        _ _ _ _ h

/-- Fuel monotonicity of the traversal. -/
theorem updateDeps_fuel_le (g : Graph) {fuel fuel2 : Nat} (hle : fuel ≤ fuel2) :
    ∀ m met used r, updateDeps g fuel m met used = some r →
      updateDeps g fuel2 m met used = some r := by
  induction fuel2 with
  | zero =>
      intro m met used r h
      have : fuel = 0 := Nat.le_zero.mp hle
      subst this
      exact h
  | succ fuel2 ih =>
      intro m met used r h
      rcases Nat.lt_or_ge fuel (fuel2 + 1) with hlt | hge
      · exact updateDeps_fuel_succ g fuel2 m met used r
          (ih (Nat.lt_succ_iff.mp hlt) m met used r h)
      · have : fuel = fuel2 + 1 := Nat.le_antisymm hle hge
        subst this
        exact h

/-- Where each dependency of the processed list ends up: every listed
dependency is absent from the final `used`, and it was either pruned (it
was in `used` when reached) or recursed into by an inner `_update_deps`
call whose states bracket the surrounding ones. -/
theorem runDeps_elem {f : String → Finset String → Finset String →
    Option (Finset String × Finset String)}
    (hf : ∀ d met used r, f d met used = some r → met ⊆ r.1 ∧ r.2 ⊆ used) :
    ∀ ds met used met3 used3,
      runDeps f ds met used = some (met3, used3) →
      ∀ z ∈ ds, z ∉ used3 ∧
        (z ∈ used ∨ ∃ met1 used1 met2 used2,
          f z met1 used1 = some (met2, used2) ∧
          met ⊆ met1 ∧ met2 ⊆ met3 ∧ used1 ⊆ used ∧ used3 ⊆ used2) := by
  intro ds
  induction ds with
  | nil => intro met used met3 used3 h z hz; cases hz
  | cons d rest ih =>
      intro met used met3 used3 h z hz
      simp only [runDeps] at h
      by_cases hd : d ∈ used
      · rw [if_pos hd] at h
        have hmono := runDeps_mono hf rest met (used.erase d) (met3, used3) h
        rcases List.mem_cons.mp hz with rfl | hz2
        · refine ⟨fun hzu => ?_, Or.inl hd⟩
          exact (Finset.not_mem_erase z used) (hmono.2 hzu)
        · obtain ⟨h1, h2⟩ := ih met (used.erase d) met3 used3 h z hz2
          refine ⟨h1, ?_⟩
          rcases h2 with h2 | ⟨met1, used1, met2, used2, hcall, hb1, hb2, hb3, hb4⟩
          · exact Or.inl (Finset.mem_of_mem_erase h2)
          · exact Or.inr ⟨met1, used1, met2, used2, hcall, hb1, hb2,
              hb3.trans (Finset.erase_subset d used), hb4⟩
      · rw [if_neg hd] at h
        cases hfd : f d met used with
        | none => rw [hfd] at h; cases h
        | some r2 =>
            rw [hfd] at h
            obtain ⟨hm1, hm2⟩ := hf d met used r2 hfd
            have hmono := runDeps_mono hf rest r2.1 r2.2 (met3, used3) h
            rcases List.mem_cons.mp hz with rfl | hz2
            · refine ⟨fun hzu => hd (hm2 (hmono.2 hzu)), ?_⟩
              exact Or.inr ⟨met, used, r2.1, r2.2, by rw [hfd],
                Finset.Subset.refl met, hmono.1, Finset.Subset.refl used,
                hmono.2⟩
            · obtain ⟨h1, h2⟩ := ih r2.1 r2.2 met3 used3 h z hz2
              refine ⟨h1, ?_⟩
              rcases h2 with h2 | ⟨met1, used1, met2, used2, hcall, hb1, hb2, hb3, hb4⟩
              · exact Or.inl (hm2 h2)
              · exact Or.inr ⟨met1, used1, met2, used2, hcall,
                  hm1.trans hb1, hb2, hb3.trans hm2, hb4⟩

/-- `updateDeps` version of `runDeps_elem`, with the fuel accounting. -/
theorem updateDeps_elem (g : Graph) {fuel : Nat} {m : String}
    {met used met3 used3 : Finset String}
    (h : updateDeps g fuel m met used = some (met3, used3)) :
    ∃ fuel2, fuel = fuel2 + 1 ∧
      ∀ z ∈ getDeps g m, z ∉ used3 ∧
        (z ∈ used ∨ ∃ met1 used1 met2 used2,
          updateDeps g fuel2 z met1 used1 = some (met2, used2) ∧
          insert m met ⊆ met1 ∧ met2 ⊆ met3 ∧ used1 ⊆ used ∧
          used3 ⊆ used2) := by
  cases fuel with
  | zero => cases h
  | succ fuel =>
      refine ⟨fuel, rfl, ?_⟩
      simp only [updateDeps] at h
      exact runDeps_elem
        (fun d met2 used2 r2 hr =>
          ⟨(Finset.subset_insert d met2).trans (updateDeps_mono g fuel d met2 used2 r2 hr).1,
           (updateDeps_mono g fuel d met2 used2 r2 hr).2⟩)
        _ _ _ _ _ h

/-! ## Walk facts -/

theorem walkTarget_nil (x : String) : walkTarget x [] = x := rfl

theorem walkTarget_cons (x d : String) (rest : List String) :
    walkTarget x (d :: rest) = walkTarget d rest :=
  List.getLastD_cons x d rest

/-- Following one edge and then a walk is a nonempty walk. -/
theorem ProperReach_head (g : Graph) {x d z : String}
    (hd : d ∈ getDeps g x) (hr : ReachRefl g d z) : ProperReach g x z := by
  obtain ⟨l, hw, ht⟩ := hr
  exact ⟨d :: l, List.cons_ne_nil d l, ⟨hd, hw⟩, by
    rw [walkTarget_cons]; exact ht⟩

theorem ReachRefl.refl (g : Graph) (x : String) : ReachRefl g x x :=
  ⟨[], trivial, rfl⟩

theorem ReachRefl_of_proper (g : Graph) {x z : String}
    (h : ProperReach g x z) : ReachRefl g x z := by
  obtain ⟨l, -, hw, ht⟩ := h
  exact ⟨l, hw, ht⟩

/-- Every node on a walk is properly reachable from its start. -/
theorem walk_get_reach (g : Graph) :
    ∀ (l : List String) (x : String), IsWalk g x l →
      ∀ (i : Nat) (hi : i < l.length), ProperReach g x (l.get ⟨i, hi⟩) := by
  intro l
  induction l with
  | nil => intro x hw i hi; cases hi
  | cons d rest ih =>
      intro x hw i hi
      obtain ⟨hd, hwr⟩ := hw
      cases i with
      | zero => exact ProperReach_head g hd (ReachRefl.refl g d)
      | succ i =>
          have := ih d hwr i (Nat.lt_of_succ_lt_succ hi)
          exact ProperReach_head g hd (ReachRefl_of_proper g this)

/-- Concatenating two walks. -/
theorem IsWalk_append (g : Graph) :
    ∀ (l1 l2 : List String) (x : String), IsWalk g x l1 →
      IsWalk g (walkTarget x l1) l2 →
      IsWalk g x (l1 ++ l2) ∧
        walkTarget x (l1 ++ l2) = walkTarget (walkTarget x l1) l2 := by
  intro l1
  induction l1 with
  | nil => intro l2 x h1 h2; exact ⟨h2, rfl⟩
  | cons d rest ih =>
      intro l2 x h1 h2
      obtain ⟨hd, hwr⟩ := h1
      rw [walkTarget_cons] at h2
      obtain ⟨hw, ht⟩ := ih l2 d hwr h2
      refine ⟨⟨hd, hw⟩, ?_⟩
      rw [List.cons_append, walkTarget_cons, ht, walkTarget_cons]

/-- The *meet* lemma: when a traversal of `_update_deps` from `x`
terminates, any walk from `x` either gets fully followed (its endpoint is
visited, and is absent from the final `used`) or is cut at the first node
that lay in `used`, which the cut removes. -/
theorem updateDeps_meet (g : Graph) :
    ∀ (l : List String) (fuel : Nat) (x : String)
      (met used met3 used3 : Finset String) (z : String),
      updateDeps g fuel x met used = some (met3, used3) →
      used ⊆ insert x met →
      IsWalk g x l → l ≠ [] → walkTarget x l = z →
      (z ∈ met3 ∧ z ∉ used3) ∨
      ∃ i, ∃ hi : i < l.length, l.get ⟨i, hi⟩ ∈ used ∧
        l.get ⟨i, hi⟩ ∉ used3 ∧
        IsWalk g (l.get ⟨i, hi⟩) (l.drop (i + 1)) ∧
        walkTarget (l.get ⟨i, hi⟩) (l.drop (i + 1)) = z := by
  intro l
  induction l with
  | nil => intro fuel x met used met3 used3 z h hum hw hne ht; exact absurd rfl hne
  | cons d rest ih =>
      intro fuel x met used met3 used3 z h hum hw hne ht
      obtain ⟨hd, hwr⟩ := hw
      rw [walkTarget_cons] at ht
      obtain ⟨fuel2, rfl, helem⟩ := updateDeps_elem g h
      obtain ⟨hdnot3, hdisj⟩ := helem d hd
      rcases hdisj with hdused | ⟨met1, used1, met2, used2, hcall, hb1, hb2, hb3, hb4⟩
      · -- `d` was pruned: the walk is cut at index 0
        refine Or.inr ⟨0, Nat.succ_pos _, hdused, hdnot3, ?_, ?_⟩
        · simpa using hwr
        · simpa using ht
      · -- `d` was recursed into
        cases rest with
        | nil =>
            -- the walk ends at `d` itself
            obtain rfl : d = z := ht
            refine Or.inl ⟨?_, hdnot3⟩
            exact hb2 ((updateDeps_mono g fuel2 d met1 used1 (met2, used2)
              hcall).1 (Finset.mem_insert_self d met1))
        | cons r1 rrest =>
            have hum1 : used1 ⊆ insert d met1 := by
              intro y hy
              exact Finset.mem_insert_of_mem (hb1 (hum (hb3 hy)))
            rcases ih fuel2 d met1 used1 met2 used2 z hcall hum1 hwr
              (List.cons_ne_nil r1 rrest) ht with
              ⟨hz1, hz2⟩ | ⟨i, hi, hu1, hu2, hwalk, htarget⟩
            · exact Or.inl ⟨hb2 hz1, fun hc => hz2 (hb4 hc)⟩
            · refine Or.inr ⟨i + 1, Nat.succ_lt_succ hi, ?_, ?_, ?_, ?_⟩
              · exact hb3 hu1
              · exact fun hc => hu2 (hb4 hc)
              · simpa using hwalk
              · simpa using htarget

/-- The *follow* lemma: a walk that never touches `used` is followed in
full by the traversal, so its length is bounded by the fuel whenever the
traversal terminates. -/
theorem updateDeps_follow (g : Graph) :
    ∀ (l : List String) (fuel : Nat) (x : String)
      (met used : Finset String) (r : Finset String × Finset String),
      updateDeps g fuel x met used = some r → IsWalk g x l →
      (∀ n ∈ l, n ∉ used) → l.length < fuel := by
  intro l
  induction l with
  | nil =>
      intro fuel x met used r h hw hnot
      cases fuel with
      | zero => cases h
      | succ fuel => exact Nat.succ_pos fuel
  | cons d rest ih =>
      intro fuel x met used r h hw hnot
      obtain ⟨hd, hwr⟩ := hw
      obtain ⟨met3, used3⟩ := r
      obtain ⟨fuel2, rfl, helem⟩ := updateDeps_elem g h
      obtain ⟨-, hdisj⟩ := helem d hd
      rcases hdisj with hdused | ⟨met1, used1, met2, used2, hcall, -, -, hb3, -⟩
      · exact absurd hdused (hnot d (List.mem_cons_self d rest))
      · have : rest.length < fuel2 := by
          refine ih fuel2 d met1 used1 (met2, used2) hcall hwr ?_
          intro n hn hnu
          exact hnot n (List.mem_cons_of_mem d hn) (hb3 hnu)
        simpa [Nat.succ_lt_succ_iff] using this

/-- Soundness of the dependency loop: new `met` entries and removed `used`
entries are properly reachable from the node whose dependencies are being
iterated. -/
theorem runDeps_sound (g : Graph) (x : String)
    {f : String → Finset String → Finset String →
      Option (Finset String × Finset String)}
    (hf : ∀ d met1 used1 met2 used2, f d met1 used1 = some (met2, used2) →
      (∀ z, z ∈ met2 → z ∈ met1 ∨ z = d ∨ ProperReach g d z) ∧
      (∀ z, z ∈ used1 → z ∉ used2 → ProperReach g d z)) :
    ∀ ds met used met3 used3,
      runDeps f ds met used = some (met3, used3) →
      (∀ d ∈ ds, d ∈ getDeps g x) →
      (∀ z, z ∈ met3 → z ∈ met ∨ ProperReach g x z) ∧
      (∀ z, z ∈ used → z ∉ used3 → ProperReach g x z) := by
  intro ds
  induction ds with
  | nil =>
      intro met used met3 used3 h hds
      simp only [runDeps] at h
      obtain ⟨rfl, rfl⟩ : met = met3 ∧ used = used3 := by
        cases h; exact ⟨rfl, rfl⟩
      exact ⟨fun z hz => Or.inl hz, fun z hz hz2 => absurd hz hz2⟩
  | cons d rest ih =>
      intro met used met3 used3 h hds
      have hdedge : d ∈ getDeps g x := hds d (List.mem_cons_self d rest)
      have hxd : ProperReach g x d := ProperReach_head g hdedge (ReachRefl.refl g d)
      simp only [runDeps] at h
      by_cases hd : d ∈ used
      · rw [if_pos hd] at h
        obtain ⟨ihm, ihu⟩ := ih met (used.erase d) met3 used3 h
          (fun e he => hds e (List.mem_cons_of_mem d he))
        refine ⟨ihm, ?_⟩
        intro z hz hz3
        by_cases hzd : z = d
        · subst hzd; exact hxd
        · exact ihu z (Finset.mem_erase.mpr ⟨hzd, hz⟩) hz3
      · rw [if_neg hd] at h
        cases hfd : f d met used with
        | none => rw [hfd] at h; cases h
        | some r2 =>
            rw [hfd] at h
            obtain ⟨met2, used2⟩ := r2
            obtain ⟨hfm, hfu⟩ := hf d met used met2 used2 hfd
            obtain ⟨ihm, ihu⟩ := ih met2 used2 met3 used3 h
              (fun e he => hds e (List.mem_cons_of_mem d he))
            constructor
            · intro z hz
              rcases ihm z hz with hz2 | hz2
              · rcases hfm z hz2 with hz3 | hz3 | hz3
                · exact Or.inl hz3
                · subst hz3; exact Or.inr hxd
                · exact Or.inr (ProperReach_head g hdedge (ReachRefl_of_proper g hz3))
              · exact Or.inr hz2
            · intro z hz hz3
              by_cases hz2 : z ∈ used2
              · exact ihu z hz2 hz3
              · exact ProperReach_head g hdedge
                  (ReachRefl_of_proper g (hfu z hz hz2))

/-- Soundness of `_update_deps`: everything newly placed in `met` is the
start or properly reachable from it, and everything removed from `used` is
properly reachable from the start. -/
theorem updateDeps_sound (g : Graph) :
    ∀ (fuel : Nat) (x : String) (met used met3 used3 : Finset String),
      updateDeps g fuel x met used = some (met3, used3) →
      (∀ z, z ∈ met3 → z ∈ met ∨ z = x ∨ ProperReach g x z) ∧
      (∀ z, z ∈ used → z ∉ used3 → ProperReach g x z) := by
  intro fuel
  induction fuel with
  | zero => intro x met used met3 used3 h; cases h
  | succ fuel ih =>
      intro x met used met3 used3 h
      simp only [updateDeps] at h
      obtain ⟨hm, hu⟩ := runDeps_sound g x
        (fun d met1 used1 met2 used2 hc => ih d met1 used1 met2 used2 hc)
        (getDeps g x) (insert x met) used met3 used3 h (fun d hd => hd)
      refine ⟨?_, hu⟩
      intro z hz
      rcases hm z hz with hz2 | hz2
      · rcases Finset.mem_insert.mp hz2 with hz3 | hz3
        · exact Or.inr (Or.inl hz3)
        · exact Or.inl hz3
      · exact Or.inr (Or.inr hz2)

/-! ## More walk utilities for the invariant proof -/

theorem walkTarget_append (x : String) :
    ∀ (l1 l2 : List String),
      walkTarget x (l1 ++ l2) = walkTarget (walkTarget x l1) l2 := by
  intro l1
  induction l1 generalizing x with
  | nil => intro l2; rfl
  | cons d rest ih =>
      intro l2
      rw [List.cons_append, walkTarget_cons, walkTarget_cons]
      exact ih d l2

theorem walk_split (g : Graph) :
    ∀ (s t : List String) (x : String), IsWalk g x (s ++ t) →
      IsWalk g x s ∧ IsWalk g (walkTarget x s) t := by
  intro s
  induction s with
  | nil => intro t x h; exact ⟨trivial, h⟩
  | cons d rest ih =>
      intro t x h
      obtain ⟨hd, hw⟩ := h
      obtain ⟨h1, h2⟩ := ih t d hw
      exact ⟨⟨hd, h1⟩, by rw [walkTarget_cons]; exact h2⟩

/-- Every node of a closed walk lies on a cycle through itself and is
reachable from the walk's base point. -/
theorem cycle_node (g : Graph) {z w : String} {lz : List String}
    (hw : IsWalk g z lz) (ht : walkTarget z lz = z) (hmem : w ∈ lz) :
    ProperReach g w w ∧ ReachRefl g z w := by
  obtain ⟨s, t, rfl⟩ := List.append_of_mem hmem
  obtain ⟨hs, hwt⟩ := walk_split g s (w :: t) z hw
  obtain ⟨hedge, htail⟩ := hwt
  have hq : IsWalk g z (s ++ [w]) ∧
      walkTarget z (s ++ [w]) = walkTarget (walkTarget z s) [w] :=
    IsWalk_append g s [w] z hs ⟨hedge, trivial⟩
  have hzw : walkTarget z (s ++ [w]) = w := by
    rw [hq.2]; rfl
  have hreach : ReachRefl g z w := ⟨s ++ [w], hq.1, hzw⟩
  have htz : walkTarget w t = z := by
    rw [walkTarget_append, walkTarget_cons] at ht
    exact ht
  -- the closed walk from w: follow t back to z, then s ++ [w] back to w
  have hwalk2 : IsWalk g w (t ++ (s ++ [w])) ∧
      walkTarget w (t ++ (s ++ [w])) = walkTarget (walkTarget w t) (s ++ [w]) :=
    IsWalk_append g t (s ++ [w]) w htail (by rw [htz]; exact hq.1)
  have htgt : walkTarget w (t ++ (s ++ [w])) = w := by
    rw [hwalk2.2, htz, hzw]
  refine ⟨⟨t ++ (s ++ [w]), ?_, hwalk2.1, htgt⟩, hreach⟩
  intro hcontra
  exact absurd (List.append_eq_nil.mp hcontra).2 (by simp)

/-- Pumping a closed walk to arbitrary length without leaving its node
set. -/
theorem cycle_pump (g : Graph) {z : String} {lz : List String}
    (hne : lz ≠ []) (hw : IsWalk g z lz) (ht : walkTarget z lz = z) :
    ∀ k : Nat, ∃ lc, IsWalk g z lc ∧ walkTarget z lc = z ∧
      k ≤ lc.length ∧ ∀ w ∈ lc, w ∈ lz := by
  intro k
  induction k with
  | zero => exact ⟨[], trivial, rfl, Nat.zero_le _, by intro w hw2; cases hw2⟩
  | succ k ih =>
      obtain ⟨lc, h1, h2, h3, h4⟩ := ih
      refine ⟨lc ++ lz, (IsWalk_append g lc lz z h1 (by rw [h2]; exact hw)).1,
        ?_, ?_, ?_⟩
      · rw [walkTarget_append, h2, ht]
      · have : 1 ≤ lz.length := by
          cases lz with
          | nil => exact absurd rfl hne
          | cons a l => exact Nat.succ_le_succ (Nat.zero_le _)
        rw [List.length_append]
        omega
      · intro w hw2
        rcases List.mem_append.mp hw2 with h | h
        · exact h4 w h
        · exact h

/-! ## Preservation of the loop invariant -/

/-- Everything properly reachable from a freshly processed module is
visited by its traversal. -/
theorem inv_step_cover (g : Graph) {fuel : Nat} {m : String}
    {met used met3 used3 : Finset String}
    (hI : Inv g met used) (hm1 : m ∉ used) (hm2 : m ∉ met)
    (h : updateDeps g fuel m met (insert m used) = some (met3, used3)) :
    ∀ z, ProperReach g m z → z ∈ met3 := by
  have hum : insert m used ⊆ insert m met :=
    Finset.insert_subset_insert m hI.usedMet
  have hmmet3 : m ∈ met3 :=
    (updateDeps_mono g fuel m met (insert m used) (met3, used3) h).1
      (Finset.mem_insert_self m met)
  have hmet3 : met ⊆ met3 := updateDeps_met_subset g h
  suffices H : ∀ n (l : List String), l.length ≤ n → l ≠ [] →
      IsWalk g m l → ∀ z, walkTarget m l = z → z ∈ met3 by
    rintro z ⟨l, hne, hwk, htg⟩
    exact H l.length l le_rfl hne hwk z htg
  intro n
  induction n with
  | zero =>
      intro l hlen hne
      cases l with
      | nil => exact absurd rfl hne
      | cons a rest => simp at hlen
  | succ n ihn =>
      intro l hlen hne hwk z htg
      rcases updateDeps_meet g l fuel m met (insert m used) met3 used3 z
          h hum hwk hne htg with ⟨hz, -⟩ | ⟨i, hi, hu1, -, hwalk, htarget⟩
      · exact hz
      · rcases Finset.mem_insert.mp hu1 with hum2 | huse
        · -- cut at `m` itself: recurse on the shorter suffix
          cases hdrop : l.drop (i + 1) with
          | nil =>
              rw [hdrop] at htarget
              rw [hum2] at htarget
              rw [← htarget]
              exact hmmet3
          | cons a rest =>
              refine ihn (l.drop (i + 1)) ?_ (by rw [hdrop]; simp)
                (by rw [← hum2]; exact hwalk) z (by rw [← hum2]; exact htarget)
              have := List.length_drop (i + 1) l
              omega
        · -- cut at an old `used` member: its closure is already in `met`
          cases hdrop : l.drop (i + 1) with
          | nil =>
              rw [hdrop] at htarget
              have : z ∈ used := by rw [← htarget]; exact huse
              exact hmet3 (hI.usedMet this)
          | cons a rest =>
              have hpr : ProperReach g (l.get ⟨i, hi⟩) z :=
                ⟨l.drop (i + 1), by rw [hdrop]; simp, hwalk, htarget⟩
              exact hmet3 (hI.cover _ huse z hpr)

/-- If the freshly processed module lies on a cycle, its own traversal
removes it from `used`. -/
theorem inv_step_self_removed (g : Graph) {fuel : Nat} {m : String}
    {met used met3 used3 : Finset String}
    (hI : Inv g met used) (hm1 : m ∉ used) (hm2 : m ∉ met)
    (h : updateDeps g fuel m met (insert m used) = some (met3, used3)) :
    ProperReach g m m → m ∉ used3 := by
  have hum : insert m used ⊆ insert m met :=
    Finset.insert_subset_insert m hI.usedMet
  rintro ⟨l, hne, hwk, htg⟩
  rcases updateDeps_meet g l fuel m met (insert m used) met3 used3 m
      h hum hwk hne htg with ⟨-, hz2⟩ | ⟨i, hi, hu1, hu2, hwalk, htarget⟩
  · exact hz2
  · rcases Finset.mem_insert.mp hu1 with hum2 | huse
    · rw [← hum2]; exact hu2
    · cases hdrop : l.drop (i + 1) with
      | nil =>
          rw [hdrop] at htarget
          exact absurd (by rw [← htarget]; exact huse) hm1
      | cons a rest =>
          have hpr : ProperReach g (l.get ⟨i, hi⟩) m :=
            ⟨l.drop (i + 1), by rw [hdrop]; simp, hwalk, htarget⟩
          exact absurd (hI.cover _ huse m hpr) hm2

/-- If some module properly reachable from the freshly processed module is
still in `used` afterwards, then the fresh module itself was removed. -/
theorem inv_step_no_reach_used3 (g : Graph) {fuel : Nat} {m : String}
    {met used met3 used3 : Finset String}
    (hI : Inv g met used) (hm1 : m ∉ used) (hm2 : m ∉ met)
    (h : updateDeps g fuel m met (insert m used) = some (met3, used3)) :
    ∀ y, ProperReach g m y → y ∈ used3 → m ∉ used3 := by
  have hum : insert m used ⊆ insert m met :=
    Finset.insert_subset_insert m hI.usedMet
  have hu3 : used3 ⊆ insert m used := updateDeps_used_subset g h
  rintro y ⟨l, hne, hwk, htg⟩ hy3
  rcases updateDeps_meet g l fuel m met (insert m used) met3 used3 y
      h hum hwk hne htg with ⟨-, hz2⟩ | ⟨i, hi, hu1, hu2, hwalk, htarget⟩
  · exact absurd hy3 hz2
  · rcases Finset.mem_insert.mp hu1 with hum2 | huse
    · rw [← hum2]; exact hu2
    · cases hdrop : l.drop (i + 1) with
      | nil =>
          rw [hdrop] at htarget
          exact absurd hy3 (by rw [← htarget]; exact hu2)
      | cons a rest =>
          have hpr : ProperReach g (l.get ⟨i, hi⟩) y :=
            ⟨l.drop (i + 1), by rw [hdrop]; simp, hwalk, htarget⟩
          rcases Finset.mem_insert.mp (hu3 hy3) with hym | hyu
          · subst hym
            exact absurd (hI.cover _ huse y hpr) hm2
          · exact absurd hyu (hI.antichain _ huse y hpr)

/-- Dropping a prefix of a walk leaves a walk from the node at the cut. -/
theorem walk_drop (g : Graph) :
    ∀ (l : List String) (x : String) (i : Nat) (hi : i < l.length),
      IsWalk g x l →
      IsWalk g (l.get ⟨i, hi⟩) (l.drop (i + 1)) ∧
        walkTarget (l.get ⟨i, hi⟩) (l.drop (i + 1)) = walkTarget x l := by
  intro l
  induction l with
  | nil => intro x i hi; cases hi
  | cons d rest ih =>
      intro x i hi hw
      obtain ⟨hd, hwr⟩ := hw
      cases i with
      | zero =>
          refine ⟨by simpa using hwr, ?_⟩
          rw [walkTarget_cons]
          simp
      | succ i =>
          have := ih d i (Nat.lt_of_succ_lt_succ hi) hwr
          refine ⟨by simpa using this.1, ?_⟩
          rw [walkTarget_cons]
          simpa using this.2

/-- If the freshly processed module survives its own traversal, no cycle is
reachable from it: otherwise the traversal could not have terminated. -/
theorem inv_step_acyclic_m (g : Graph) {fuel : Nat} {m : String}
    {met used met3 used3 : Finset String}
    (hI : Inv g met used) (hm1 : m ∉ used) (hm2 : m ∉ met)
    (h : updateDeps g fuel m met (insert m used) = some (met3, used3))
    (hm3 : m ∈ used3) :
    ∀ z, ReachRefl g m z → ¬ ProperReach g z z := by
  intro z hrz hcyc
  obtain ⟨lz, hlzne, hlzw, hlzt⟩ := hcyc
  have hcycnodes : ∀ w ∈ lz, w ∉ insert m used := by
    intro w hwmem hwin
    obtain ⟨hww, hzw⟩ := cycle_node g hlzw hlzt hwmem
    rcases Finset.mem_insert.mp hwin with rfl | hwu
    · exact absurd hm3 (inv_step_self_removed g hI hm1 hm2 h hww)
    · exact absurd hww (hI.acyclic w hwu w (ReachRefl.refl g w))
  have hclean : ∀ lp, IsWalk g m lp → walkTarget m lp = z →
      (∀ w ∈ lp, w ∉ insert m used) → False := by
    intro lp hw hwt hnot
    obtain ⟨lc, hc1, hc2, hc3, hc4⟩ := cycle_pump g hlzne hlzw hlzt fuel
    have hcomb := IsWalk_append g lp lc m hw (by rw [hwt]; exact hc1)
    have hlen := updateDeps_follow g (lp ++ lc) fuel m met (insert m used)
      (met3, used3) h hcomb.1 ?_
    · rw [List.length_append] at hlen
      omega
    · intro w hwm
      rcases List.mem_append.mp hwm with hin | hin
      · exact hnot w hin
      · exact hcycnodes w (hc4 w hin)
  obtain ⟨lp0, hlp0w, hlp0t⟩ := hrz
  suffices H : ∀ n (lp : List String), lp.length ≤ n → IsWalk g m lp →
      walkTarget m lp = z → False from H lp0.length lp0 le_rfl hlp0w hlp0t
  intro n
  induction n with
  | zero =>
      intro lp hlen hw hwt
      cases lp with
      | nil => exact hclean [] hw hwt (by intro w hwm; cases hwm)
      | cons a rest => simp at hlen
  | succ n ihn =>
      intro lp hlen hw hwt
      by_cases hbad : ∃ i, ∃ hi : i < lp.length, lp.get ⟨i, hi⟩ ∈ insert m used
      · obtain ⟨i, hi, hin⟩ := hbad
        obtain ⟨hdw, hdt⟩ := walk_drop g lp m i hi hw
        rcases Finset.mem_insert.mp hin with hum2 | huse
        · cases hdrop : lp.drop (i + 1) with
          | nil =>
              rw [hdrop] at hdt
              rw [walkTarget_nil, hum2] at hdt
              have hzm : z = m := by rw [← hwt, ← hdt]
              rw [hzm] at hlzw hlzt
              exact absurd hm3 (inv_step_self_removed g hI hm1 hm2 h
                ⟨lz, hlzne, hlzw, hlzt⟩)
          | cons a rest =>
              refine ihn (lp.drop (i + 1)) ?_
                (by rw [← hum2]; exact hdw) (by rw [← hum2, hdt]; exact hwt)
              have := List.length_drop (i + 1) lp
              omega
        · have hrr : ReachRefl g (lp.get ⟨i, hi⟩) z :=
            ⟨lp.drop (i + 1), hdw, by rw [hdt]; exact hwt⟩
          exact hI.acyclic _ huse z hrr ⟨lz, hlzne, hlzw, hlzt⟩
      · push_neg at hbad
        refine hclean lp hw hwt ?_
        intro w hwm
        obtain ⟨⟨i, hi⟩, hget⟩ := List.mem_iff_get.mp hwm
        rw [← hget]
        exact hbad i hi

/-- One terminating iteration of the `_minimum_dep_tree` loop preserves the
invariant. -/
theorem inv_step (g : Graph) {fuel : Nat} {m : String}
    {met used met3 used3 : Finset String}
    (hI : Inv g met used) (hm1 : m ∉ used) (hm2 : m ∉ met)
    (h : updateDeps g fuel m met (insert m used) = some (met3, used3)) :
    Inv g met3 used3 := by
  have hu3 : used3 ⊆ insert m used := updateDeps_used_subset g h
  have hmet3 : met ⊆ met3 := updateDeps_met_subset g h
  have hmmet3 : m ∈ met3 :=
    (updateDeps_mono g fuel m met (insert m used) (met3, used3) h).1
      (Finset.mem_insert_self m met)
  refine ⟨?_, ?_, ?_, ?_⟩
  · -- usedMet
    intro z hz
    rcases Finset.mem_insert.mp (hu3 hz) with rfl | hzu
    · exact hmmet3
    · exact hmet3 (hI.usedMet hzu)
  · -- antichain
    intro a ha y hay hy3
    rcases Finset.mem_insert.mp (hu3 ha) with rfl | hau
    · exact inv_step_no_reach_used3 g hI hm1 hm2 h y hay hy3 ha
    · rcases Finset.mem_insert.mp (hu3 hy3) with rfl | hyu
      · exact hm2 (hI.cover a hau y hay)
      · exact hI.antichain a hau y hay hyu
  · -- acyclic
    intro u hu z hrz
    rcases Finset.mem_insert.mp (hu3 hu) with rfl | huu
    · exact inv_step_acyclic_m g hI hm1 hm2 h hu z hrz
    · exact hI.acyclic u huu z hrz
  · -- cover
    intro u hu z huz
    rcases Finset.mem_insert.mp (hu3 hu) with rfl | huu
    · exact inv_step_cover g hI hm1 hm2 h z huz
    · exact hmet3 (hI.cover u huu z huz)

/-- The `_minimum_dep_tree` loop maintains the invariant from any invariant
state through to its final `used` set. -/
theorem minimumGo_inv (g : Graph) (fuel : Nat) :
    ∀ (ms : List String) (met used : Finset String) (R : Finset String),
      Inv g met used → minimumGo g fuel ms met used = some R →
      ∃ metF, Inv g metF R := by
  intro ms
  induction ms with
  | nil =>
      intro met used R hI h
      simp only [minimumGo] at h
      obtain rfl : used = R := by cases h; rfl
      exact ⟨met, hI⟩
  | cons m rest ih =>
      intro met used R hI h
      simp only [minimumGo] at h
      by_cases hc : m ∉ used ∧ m ∉ met
      · rw [if_pos hc] at h
        cases hu : updateDeps g fuel m met (insert m used) with
        | none => rw [hu] at h; cases h
        | some r2 =>
            rw [hu] at h
            exact ih r2.1 r2.2 R (inv_step g hI hc.1 hc.2 hu) h
      · rw [if_neg hc] at h
        exact ih met used R hI h

/-- Whenever the reducer terminates, its result satisfies the invariant:
it is an antichain under proper reachability (no member reaches another or
itself) and no cycle is reachable from any member. -/
theorem minimumDepTree_inv (g : Graph) {fuel : Nat} {M : List String}
    {R : Finset String} (h : minimumDepTree g fuel M = some R) :
    ∃ metF, Inv g metF R := by
  refine minimumGo_inv g fuel M ∅ ∅ R ⟨?_, ?_, ?_, ?_⟩ h
  · intro z hz; cases hz
  · intro u hu; cases hu
  · intro u hu; cases hu
  · intro u hu; cases hu

/-! ## Completeness and termination of an unobstructed traversal -/

/-- When nothing properly reachable from the start lies in `used`, the
traversal prunes nothing: `used` is unchanged and `met` gains exactly the
start and its proper descendants. -/
theorem updateDeps_complete (g : Graph) {fuel : Nat} {r : String}
    {met used met3 used3 : Finset String}
    (h : updateDeps g fuel r met used = some (met3, used3))
    (husedmet : used ⊆ insert r met)
    (hnr : ∀ y, ProperReach g r y → y ∉ used) :
    used3 = used ∧
      ∀ y, y ∈ met3 ↔ (y ∈ met ∨ y = r ∨ ProperReach g r y) := by
  have hsound := updateDeps_sound g fuel r met used met3 used3 h
  have hused : used3 = used := by
    apply Finset.Subset.antisymm (updateDeps_used_subset g h)
    intro z hz
    by_contra hz3
    exact (hnr z (hsound.2 z hz hz3)) hz
  refine ⟨hused, fun y => ⟨fun hy => hsound.1 y hy, fun hy => ?_⟩⟩
  rcases hy with hy | rfl | hy
  · exact updateDeps_met_subset g h hy
  · exact (updateDeps_mono g fuel y met used (met3, used3) h).1
      (Finset.mem_insert_self y met)
  · obtain ⟨l, hne, hw, ht⟩ := hy
    rcases updateDeps_meet g l fuel r met used met3 used3 y h husedmet hw hne
        ht with ⟨h1, -⟩ | ⟨i, hi, hu1, -, -, -⟩
    · exact h1
    · exact absurd hu1 (hnr _ (walk_get_reach g l r hw i hi))

/-- Every node met along a walk is one of the graph's edge targets. -/
theorem walk_nodes_targets (g : Graph) :
    ∀ (l : List String) (x : String), IsWalk g x l →
      ∀ w ∈ l, w ∈ depTargets g := by
  intro l
  induction l with
  | nil => intro x hw w hmem; cases hmem
  | cons d rest ih =>
      intro x hw w hmem
      obtain ⟨hd, hwr⟩ := hw
      rcases List.mem_cons.mp hmem with rfl | hmem2
      · unfold getDeps at hd
        cases hfind : (g.find? (fun p => p.1 == x)) with
        | none => rw [hfind] at hd; cases hd
        | some p =>
            rw [hfind] at hd
            exact List.mem_flatMap.mpr ⟨p, List.mem_of_find?_eq_some hfind, hd⟩
      · exact ih d hwr w hmem2

/-- When no cycle is reachable from the start, every walk visits pairwise
distinct nodes. -/
theorem walk_nodup_of_acyclic (g : Graph) :
    ∀ (l : List String) (x : String), IsWalk g x l →
      (∀ z, ReachRefl g x z → ¬ ProperReach g z z) → l.Nodup := by
  intro l
  induction l with
  | nil => intro x hw hacyc; exact List.nodup_nil
  | cons d rest ih =>
      intro x hw hacyc
      obtain ⟨hd, hwr⟩ := hw
      have hxd : ReachRefl g x d :=
        ReachRefl_of_proper g (ProperReach_head g hd (ReachRefl.refl g d))
      refine List.nodup_cons.mpr ⟨?_, ?_⟩
      · intro hdmem
        obtain ⟨s, t, rfl⟩ := List.append_of_mem hdmem
        obtain ⟨hs, hst⟩ := walk_split g s (d :: t) d hwr
        obtain ⟨hedge, -⟩ := hst
        have hq := IsWalk_append g s [d] d hs ⟨hedge, trivial⟩
        have hdd : ProperReach g d d :=
          ⟨s ++ [d], by simp, hq.1, by rw [hq.2]; rfl⟩
        exact hacyc d hxd hdd
      · refine ih d hwr ?_
        intro z hz
        refine hacyc z ?_
        obtain ⟨l2, hw2, ht2⟩ := hz
        obtain ⟨l3, hw3, ht3⟩ := hxd
        obtain ⟨hwc, htc⟩ := IsWalk_append g l3 l2 x hw3 (by rw [ht3]; exact hw2)
        exact ⟨l3 ++ l2, hwc, by rw [htc, ht3]; exact ht2⟩

/-- The dependency loop terminates when each recursive call does. -/
theorem runDeps_term {f : String → Finset String → Finset String →
    Option (Finset String × Finset String)} :
    ∀ ds : List String,
      (∀ d ∈ ds, ∀ met1 used1, ∃ r, f d met1 used1 = some r) →
      ∀ met used, ∃ r, runDeps f ds met used = some r := by
  intro ds
  induction ds with
  | nil => intro hf met used; exact ⟨(met, used), rfl⟩
  | cons d rest ih =>
      intro hf met used
      simp only [runDeps]
      by_cases hd : d ∈ used
      · rw [if_pos hd]
        exact ih (fun e he => hf e (List.mem_cons_of_mem d he)) met (used.erase d)
      · rw [if_neg hd]
        obtain ⟨r2, hr2⟩ := hf d (List.mem_cons_self d rest) met used
        rw [hr2]
        exact ih (fun e he => hf e (List.mem_cons_of_mem d he)) r2.1 r2.2

/-- If every walk from the start has length at most `B`, the traversal
terminates within recursion depth `B + 2`. -/
theorem updateDeps_term (g : Graph) :
    ∀ (B : Nat) (x : String) (met used : Finset String),
      (∀ l, IsWalk g x l → l.length ≤ B) →
      ∃ r, updateDeps g (B + 2) x met used = some r := by
  intro B
  induction B with
  | zero =>
      intro x met used hbound
      have hdeps : getDeps g x = [] := by
        cases hd : getDeps g x with
        | nil => rfl
        | cons d rest =>
            have : IsWalk g x [d] := ⟨by rw [hd]; exact List.mem_cons_self d rest, trivial⟩
            have := hbound [d] this
            simp at this
      show ∃ r, updateDeps g 2 x met used = some r
      simp only [updateDeps, hdeps, runDeps]
      exact ⟨(insert x met, used), rfl⟩
  | succ B ih =>
      intro x met used hbound
      show ∃ r, updateDeps g (B + 3) x met used = some r
      simp only [updateDeps]
      refine runDeps_term (getDeps g x) ?_ (insert x met) used
      intro d hd met1 used1
      refine ih d met1 used1 ?_
      intro l hw
      have : IsWalk g x (d :: l) := ⟨hd, hw⟩
      have := hbound (d :: l) this
      simpa [Nat.succ_le_succ_iff] using this

/-- Fuel monotonicity of the whole reducer loop. -/
theorem minimumGo_fuel_le (g : Graph) {fuel fuel2 : Nat} (hle : fuel ≤ fuel2) :
    ∀ (ms : List String) (met used : Finset String) (R : Finset String),
      minimumGo g fuel ms met used = some R →
      minimumGo g fuel2 ms met used = some R := by
  intro ms
  induction ms with
  | nil => intro met used R h; exact h
  | cons m rest ih =>
      intro met used R h
      simp only [minimumGo] at h ⊢
      by_cases hc : m ∉ used ∧ m ∉ met
      · rw [if_pos hc] at h ⊢
        cases hu : updateDeps g fuel m met (insert m used) with
        | none => rw [hu] at h; cases h
        | some r2 =>
            rw [hu] at h
            rw [updateDeps_fuel_le g hle m met (insert m used) r2 hu]
            exact ih r2.1 r2.2 R h
      · rw [if_neg hc] at h ⊢
        exact ih met used R h

/-! ## Re-running the reducer on its own output -/

/-- Running the `_minimum_dep_tree` loop over members of an antichain `R`
(no member properly reaches another or itself) keeps every processed
member: nothing is pruned and nothing is skipped. -/
theorem run2_go (g : Graph) (R : Finset String) (B : Nat)
    (hanti : ∀ u ∈ R, ∀ z, ProperReach g u z → z ∉ R)
    (hterm : ∀ r ∈ R, ∀ met used,
      ∃ res, updateDeps g (B + 2) r met used = some res) :
    ∀ (L : List String) (met used : Finset String),
      L.Nodup → (∀ x ∈ L, x ∈ R) → used ⊆ R → (∀ x ∈ L, x ∉ used) →
      (∀ y, y ∈ met ↔ ∃ p ∈ used, y = p ∨ ProperReach g p y) →
      minimumGo g (B + 2) L met used = some (used ∪ L.toFinset) := by
  intro L
  induction L with
  | nil =>
      intro met used hnd hLR huR hLu hmet
      simp [minimumGo]
  | cons m L2 ih =>
      intro met used hnd hLR huR hLu hmet
      have hmR : m ∈ R := hLR m (List.mem_cons_self m L2)
      have hmu : m ∉ used := hLu m (List.mem_cons_self m L2)
      have husedmetIncl : used ⊆ met := by
        intro p hp
        exact (hmet p).mpr ⟨p, hp, Or.inl rfl⟩
      have hmmet : m ∉ met := by
        intro hin
        obtain ⟨p, hp, hcase⟩ := (hmet m).mp hin
        rcases hcase with rfl | hreach
        · exact hmu hp
        · exact (hanti p (huR hp) m hreach) hmR
      simp only [minimumGo]
      rw [if_pos ⟨hmu, hmmet⟩]
      obtain ⟨res, hres⟩ := hterm m hmR met (insert m used)
      obtain ⟨met3, used3⟩ := res
      have hnr : ∀ y, ProperReach g m y → y ∉ insert m used := by
        intro y hy hyin
        rcases Finset.mem_insert.mp hyin with hym | hyu
        · subst hym
          exact (hanti y hmR y hy) hmR
        · exact (hanti m hmR y hy) (huR hyu)
      have husedmet : insert m used ⊆ insert m met :=
        Finset.insert_subset_insert m husedmetIncl
      obtain ⟨hused_eq, hmet_iff⟩ := updateDeps_complete g hres husedmet hnr
      rw [hres]
      have hndtail : L2.Nodup := (List.nodup_cons.mp hnd).2
      have hmnot : m ∉ L2 := (List.nodup_cons.mp hnd).1
      have hnotin : ∀ x ∈ L2, x ∉ insert m used := by
        intro x hx
        rw [Finset.mem_insert]
        push_neg
        refine ⟨fun hxm => hmnot ?_, hLu x (List.mem_cons_of_mem m hx)⟩
        rw [← hxm]
        exact hx
      have hmetiff : ∀ y, y ∈ met3 ↔
          ∃ p ∈ insert m used, y = p ∨ ProperReach g p y := by
        intro y
        rw [hmet_iff y]
        constructor
        · rintro (hy | rfl | hy)
          · obtain ⟨p, hp, hc⟩ := (hmet y).mp hy
            exact ⟨p, Finset.mem_insert_of_mem hp, hc⟩
          · exact ⟨y, Finset.mem_insert_self y used, Or.inl rfl⟩
          · exact ⟨m, Finset.mem_insert_self m used, Or.inr hy⟩
        · rintro ⟨p, hp, hc⟩
          rcases Finset.mem_insert.mp hp with rfl | hpu
          · rcases hc with rfl | hreach
            · exact Or.inr (Or.inl rfl)
            · exact Or.inr (Or.inr hreach)
          · exact Or.inl ((hmet y).mpr ⟨p, hpu, hc⟩)
      have hrec := ih met3 (insert m used) hndtail
        (fun x hx => hLR x (List.mem_cons_of_mem m hx))
        (Finset.insert_subset_iff.mpr ⟨hmR, huR⟩)
        hnotin hmetiff
      show minimumGo g (B + 2) L2 met3 used3 = some (used ∪ (m :: L2).toFinset)
      rw [hused_eq, hrec]
      congr 1
      ext x
      simp only [Finset.mem_union, Finset.mem_insert, List.toFinset_cons,
        List.mem_toFinset]
      tauto

/-- **C5** (idempotence): whenever the reducer terminates on `(G, M)` with
result `R`, running it again on any duplicate-free enumeration `L` of `R`
terminates (for sufficient fuel) and returns `R` unchanged, and no
terminating re-run can return anything else. -/
theorem minimumDepTree_idempotent (g : Graph) (fuel : Nat) (M : List String)
    (R : Finset String) (h : minimumDepTree g fuel M = some R)
    (L : List String) (hnd : L.Nodup) (hLR : L.toFinset = R) :
    (∃ fuel2, minimumDepTree g fuel2 L = some R) ∧
      ∀ fuel3 R3, minimumDepTree g fuel3 L = some R3 → R3 = R := by
  obtain ⟨metF, hI⟩ := minimumDepTree_inv g h
  have hbound : ∀ r ∈ R, ∀ l, IsWalk g r l →
      l.length ≤ (depTargets g).toFinset.card := by
    intro r hr l hw
    have hnd2 := walk_nodup_of_acyclic g l r hw (hI.acyclic r hr)
    rw [← List.toFinset_card_of_nodup hnd2]
    apply Finset.card_le_card
    intro w hwm
    exact List.mem_toFinset.mpr
      (walk_nodes_targets g l r hw w (List.mem_toFinset.mp hwm))
  have hterm : ∀ r ∈ R, ∀ met used,
      ∃ res, updateDeps g ((depTargets g).toFinset.card + 2) r met used =
        some res :=
    fun r hr met used =>
      updateDeps_term g (depTargets g).toFinset.card r met used (hbound r hr)
  have hrun := run2_go g R (depTargets g).toFinset.card hI.antichain hterm
    L ∅ ∅ hnd
    (fun x hx => by rw [← hLR]; exact List.mem_toFinset.mpr hx)
    (Finset.empty_subset R)
    (fun x hx => Finset.not_mem_empty x)
    (fun y => by simp)
  have hrun2 : minimumDepTree g ((depTargets g).toFinset.card + 2) L =
      some R := by
    show minimumGo g ((depTargets g).toFinset.card + 2) L ∅ ∅ = some R
    rw [hrun, Finset.empty_union, hLR]
  refine ⟨⟨(depTargets g).toFinset.card + 2, hrun2⟩, ?_⟩
  intro fuel3 R3 h3
  rcases Nat.le_total fuel3 ((depTargets g).toFinset.card + 2) with hle | hle
  · have hmg : minimumDepTree g ((depTargets g).toFinset.card + 2) L = some R3 :=
      minimumGo_fuel_le g hle L ∅ ∅ R3 h3
    exact Option.some.inj (hmg.symm.trans hrun2)
  · have hmg : minimumDepTree g fuel3 L = some R :=
      minimumGo_fuel_le g hle L ∅ ∅ R hrun2
    exact Option.some.inj (h3.symm.trans hmg)

/-- Witness for `minimumDepTree_idempotent` at a concrete input. -/
theorem minimumDepTree_idempotent_witness :
    (∃ fuel2, minimumDepTree [("a", ["b"])] fuel2 ["a"] = some {"a"}) ∧
      ∀ fuel3 R3, minimumDepTree [("a", ["b"])] fuel3 ["a"] = some R3 →
        R3 = {"a"} :=
  minimumDepTree_idempotent [("a", ["b"])] 10 ["a", "b"] {"a"} rfl
    ["a"] (by simp) rfl

/-- Everything the loop of `_minimum_dep_tree` ever puts into `used` comes
from the initial `used` or from the module list. -/
theorem minimumGo_subset (g : Graph) (fuel : Nat) :
    ∀ ms met used R, minimumGo g fuel ms met used = some R →
      R ⊆ used ∪ ms.toFinset := by
  intro ms
  induction ms with
  | nil =>
      intro met used R h
      simp only [minimumGo] at h
      cases h
      exact Finset.subset_union_left
  | cons m rest ih =>
      intro met used R h
      simp only [minimumGo] at h
      by_cases hc : m ∉ used ∧ m ∉ met
      · simp only [if_pos hc] at h
        cases hu : updateDeps g fuel m met (insert m used) with
        | none => rw [hu] at h; cases h
        | some r2 =>
            rw [hu] at h
            have h1 : R ⊆ r2.2 ∪ rest.toFinset := ih _ _ _ h
            have h2 : r2.2 ⊆ insert m used := updateDeps_used_subset g hu
            refine (h1.trans (Finset.union_subset_union_left h2)).trans ?_
            intro x hx
            simp only [Finset.mem_union, Finset.mem_insert, List.toFinset_cons] at hx ⊢
            tauto
      · simp only [if_neg hc] at h
        refine (ih _ _ _ h).trans ?_
        intro x hx
        simp only [Finset.mem_union, Finset.mem_insert, List.toFinset_cons] at hx ⊢
        tauto

/-- **C4** (subset property / no spurious introduction): whenever the
reducer `_minimum_dep_tree` terminates, its result is a subset of the
(deduplicated) input module list; no module name absent from the input ever
appears in the result. -/
theorem minimumDepTree_subset (g : Graph) (fuel : Nat) (M : List String)
    (R : Finset String) (h : minimumDepTree g fuel M = some R) :
    R ⊆ M.toFinset := by
  have := minimumGo_subset g fuel M ∅ ∅ R h
  simpa using this

/-- Witness for `minimumDepTree_subset` at a concrete input. -/
theorem minimumDepTree_subset_witness :
    minimumDepTree [("a", ["b"]), ("b", ["c"])] 10 ["a", "b", "c", "d"] =
        some {"d", "a"} ∧
      ({"d", "a"} : Finset String) ⊆ (["a", "b", "c", "d"] : List String).toFinset :=
  ⟨rfl, minimumDepTree_subset [("a", ["b"]), ("b", ["c"])] 10 _ _ rfl⟩

/-! ## C6: the `met` set and the start node -/

/-- **C6, counterexample**: on the empty graph, `_update_deps` starting at
`"a"` returns `met = {"a"}` even though `"a"` is not reachable from itself
via any cycle (it has no outgoing edges at all).  This refutes the claim
that the `met` set contains the start node only if the start is reachable
from itself. -/
theorem met_contains_start_counterexample :
    updateDeps ([] : Graph) 2 "a" ∅ ∅ = some ({"a"}, ∅) ∧
      ¬ ProperReach [] "a" "a" := by
  refine ⟨rfl, ?_⟩
  rintro ⟨l, hne, hw, -⟩
  cases l with
  | nil => exact hne rfl
  | cons b rest => exact absurd hw.1 (by simp [getDeps])

/-- **C6, amended**: the first statement of `_update_deps` is
`met.add(module)`, so the `met` set always contains the start node, whether
or not the start lies on a cycle (it is the start plus the nodes the
traversal reaches, not the set of proper descendants). -/
theorem updateDeps_start_mem_met (g : Graph) (fuel : Nat) (m : String)
    (met used : Finset String) {r : Finset String × Finset String}
    (h : updateDeps g fuel m met used = some r) : m ∈ r.1 :=
  (updateDeps_mono g fuel m met used r h).1 (Finset.mem_insert_self m met)

/-- Witness for `updateDeps_start_mem_met` at a concrete input. -/
theorem updateDeps_start_mem_met_witness :
    "a" ∈ (({"a"} : Finset String), (∅ : Finset String)).1 :=
  updateDeps_start_mem_met ([] : Graph) 2 "a" ∅ ∅ rfl

/-! ## C1 and C3: the reducer on the two-node cycle

`G = {"x": {"y"}, "y": {"x"}}`, `M = ["x", "y"]`.  Processing `"x"` adds it
to `used` and traverses: `y` is visited, and `y`'s dependency `x` is found
in `used` and removed — the module under processing removes itself, so the
reducer returns `∅` rather than the `{"x"}` the spec documents, and the
closure-equivalence invariant fails. -/

/-- **C3**: on the two-node cycle with `M = ["x", "y"]` the reducer returns
`∅`, not the `{"x"}` the claim states ("first-seen module wins"). -/
theorem cycle_example_returns_empty :
    minimumDepTree [("x", ["y"]), ("y", ["x"])] 10 ["x", "y"] = some ∅ ∧
      (∅ : Finset String) ≠ {"x"} :=
  ⟨rfl, by decide⟩

/-- **C1**: the closure-equivalence invariant fails at the two-node cycle:
the reducer returns `∅`, whose union of transitive closures (the union over
the empty set) differs from the union of transitive closures of the input
`["x", "y"]`, which is `{"x", "y"}`. -/
theorem closure_equivalence_fails_on_cycle :
    minimumDepTree [("x", ["y"]), ("y", ["x"])] 10 ["x", "y"] = some ∅ ∧
      specClosureUnion [("x", ["y"]), ("y", ["x"])] 10 [] ≠
        specClosureUnion [("x", ["y"]), ("y", ["x"])] 10 ["x", "y"] :=
  ⟨rfl, by decide⟩

/-! ## C2: non-termination on cyclic graphs

`_update_deps` recurses into a dependency whenever it is not in `used` —
the `met` set is never consulted before recursing, so there is no visited
check.  On `G = {"a": {"b"}, "b": {"b"}}` with `M = ["a"]` the traversal
reaches the self-loop at `b` with nothing protecting it in `used` and
recurses forever.  Likewise `_min_path` accumulates `current_path` but
never consults it, so searching a path from `"x"` to an unreachable `"z"`
inside the cycle `x ↔ y` recurses forever. -/

theorem selfloop_updateDeps_diverges :
    ∀ fuel met,
      updateDeps [("a", ["b"]), ("b", ["b"])] fuel "b" met {"a"} = none := by
  intro fuel
  induction fuel with
  | zero => intro met; rfl
  | succ fuel ih =>
      intro met
      simp only [updateDeps]
      have hg : getDeps [("a", ["b"]), ("b", ["b"])] "b" = ["b"] := rfl
      rw [hg]
      simp only [runDeps]
      rw [if_neg (by decide : ¬ ("b" ∈ ({"a"} : Finset String)))]
      rw [ih (insert "b" met)]

theorem selfloop_reducer_diverges :
    ∀ fuel, minimumDepTree [("a", ["b"]), ("b", ["b"])] fuel ["a"] = none := by
  intro fuel
  simp only [minimumDepTree, minimumGo]
  rw [if_pos (by decide : "a" ∉ (∅ : Finset String) ∧ "a" ∉ (∅ : Finset String))]
  cases fuel with
  | zero => rfl
  | succ fuel =>
      have h2 : updateDeps [("a", ["b"]), ("b", ["b"])] (fuel + 1) "a" ∅
          (insert "a" ∅) = none := by
        simp only [updateDeps]
        have hg : getDeps [("a", ["b"]), ("b", ["b"])] "a" = ["b"] := rfl
        rw [hg]
        simp only [runDeps]
        rw [if_neg (by decide : ¬ ("b" ∈ (insert "a" ∅ : Finset String)))]
        have : insert "a" (∅ : Finset String) = {"a"} := rfl
        rw [this, selfloop_updateDeps_diverges fuel {"a"}]
      rw [h2]

theorem cyc_minPath_diverges :
    ∀ fuel cur,
      minPath [("x", ["y"]), ("y", ["x"])] fuel "x" "z" cur = none ∧
        minPath [("x", ["y"]), ("y", ["x"])] fuel "y" "z" cur = none := by
  intro fuel
  induction fuel with
  | zero => intro cur; exact ⟨rfl, rfl⟩
  | succ fuel ih =>
      intro cur
      constructor
      · simp only [minPath]
        rw [if_neg (by decide : ¬ (("x" == "z") = true))]
        have hg : getDeps [("x", ["y"]), ("y", ["x"])] "x" = ["y"] := rfl
        rw [hg]
        simp only [runPath]
        rw [if_neg (by decide : ¬ (("y" == "z") = true))]
        rw [(ih (cur ++ ["y"])).2]
      · simp only [minPath]
        rw [if_neg (by decide : ¬ (("y" == "z") = true))]
        have hg : getDeps [("x", ["y"]), ("y", ["x"])] "y" = ["x"] := rfl
        rw [hg]
        simp only [runPath]
        rw [if_neg (by decide : ¬ (("x" == "z") = true))]
        rw [(ih (cur ++ ["x"])).1]

/-- **C2**: the claim that cyclic graphs always terminate is false.  There
is no visited-set check before recursing in either `_update_deps` or
`_min_path`: on `G = {"a": {"b"}, "b": {"b"}}` the reducer exceeds every
recursion depth (returns `none` for every fuel), and on the cycle
`G = {"x": {"y"}, "y": {"x"}}` the first-path search for the unreachable
target `"z"` exceeds every recursion depth from any `current_path`. -/
theorem no_termination_on_cycles :
    (∀ fuel, minimumDepTree [("a", ["b"]), ("b", ["b"])] fuel ["a"] = none) ∧
      (∀ fuel cur,
        minPath [("x", ["y"]), ("y", ["x"])] fuel "x" "z" cur = none) :=
  ⟨selfloop_reducer_diverges, fun fuel cur => (cyc_minPath_diverges fuel cur).1⟩

/-! ## C7, C8, C9: the spanning forest -/

/-- Appending one node to a nonempty path appends one edge from its last
element. -/
theorem pathEdges_concat :
    ∀ (cur : List String) (s d : String), cur.getLast? = some s →
      pathEdges (cur ++ [d]) = pathEdges cur ++ [(s, d)] := by
  intro cur
  induction cur with
  | nil => intro s d h; cases h
  | cons a tl ih =>
      intro s d h
      cases tl with
      | nil =>
          simp only [List.getLast?_singleton, Option.some_inj] at h
          subst h
          rfl
      | cons b tl2 =>
          rw [List.getLast?_cons_cons] at h
          have hstep : pathEdges ((a :: b :: tl2) ++ [d]) =
              (a, b) :: pathEdges ((b :: tl2) ++ [d]) := rfl
          rw [hstep, ih s d h]
          rfl

/-- The head of a nonempty path is unchanged by appending. -/
theorem head?_concat (cur : List String) (d : String) (h : cur ≠ []) :
    (cur ++ [d]).head? = cur.head? := by
  cases cur with
  | nil => exact absurd rfl h
  | cons a tl => rfl

/-- Soundness of the `_min_path` dependency loop: provided the current
path is a genuine walk ending at the node whose dependencies `ds` are
being iterated, any returned path is a genuine walk with the same head. -/
theorem runPath_sound (g : Graph)
    {f : String → List String → Option (Option (List String))}
    (hf : ∀ d cur p, f d cur = some (some p) → cur ≠ [] →
      cur.getLast? = some d →
      (∀ ed ∈ pathEdges cur, ed.2 ∈ getDeps g ed.1) →
      (∀ ed ∈ pathEdges p, ed.2 ∈ getDeps g ed.1) ∧
        p.head? = cur.head? ∧ p ≠ []) :
    ∀ (ds : List String) (s stop : String) (cur p : List String),
      runPath f ds stop cur = some (some p) →
      (∀ d ∈ ds, d ∈ getDeps g s) →
      cur ≠ [] → cur.getLast? = some s →
      (∀ ed ∈ pathEdges cur, ed.2 ∈ getDeps g ed.1) →
      (∀ ed ∈ pathEdges p, ed.2 ∈ getDeps g ed.1) ∧
        p.head? = cur.head? ∧ p ≠ [] := by
  intro ds
  induction ds with
  | nil => intro s stop cur p h; cases h
  | cons d rest ih =>
      intro s stop cur p h hds hne hlast hok
      have hedge : d ∈ getDeps g s := hds d (List.mem_cons_self d rest)
      have hok2 : ∀ ed ∈ pathEdges (cur ++ [d]), ed.2 ∈ getDeps g ed.1 := by
        rw [pathEdges_concat cur s d hlast]
        intro ed hed
        rcases List.mem_append.mp hed with h1 | h2
        · exact hok ed h1
        · rcases List.mem_singleton.mp h2 with rfl
          exact hedge
      simp only [runPath] at h
      by_cases hstop : (d == stop) = true
      · rw [if_pos hstop] at h
        obtain rfl : cur ++ [d] = p := by
          cases h; rfl
        exact ⟨hok2, head?_concat cur d hne, by simp⟩
      · rw [if_neg hstop] at h
        cases hfd : f d (cur ++ [d]) with
        | none => rw [hfd] at h; cases h
        | some r =>
            cases r with
            | none =>
                rw [hfd] at h
                exact ih s stop cur p h
                  (fun x hx => hds x (List.mem_cons_of_mem d hx)) hne hlast hok
            | some p2 =>
                rw [hfd] at h
                have hp2 : p2 = p := Option.some.inj (Option.some.inj h)
                obtain ⟨h1, h2, h3⟩ := hf d (cur ++ [d]) p2 hfd (by simp)
                  (List.getLast?_concat cur) hok2
                rw [hp2] at h1 h2 h3
                exact ⟨h1, h2.trans (head?_concat cur d hne), h3⟩

/-- Soundness of `_min_path`: a returned path extends the current path, so
it is a walk of the graph with the same head. -/
theorem minPath_sound (g : Graph) :
    ∀ (fuel : Nat) (s stop : String) (cur p : List String),
      minPath g fuel s stop cur = some (some p) →
      cur ≠ [] → cur.getLast? = some s →
      (∀ ed ∈ pathEdges cur, ed.2 ∈ getDeps g ed.1) →
      (∀ ed ∈ pathEdges p, ed.2 ∈ getDeps g ed.1) ∧
        p.head? = cur.head? ∧ p ≠ [] := by
  intro fuel
  induction fuel with
  | zero => intro s stop cur p h; cases h
  | succ fuel ih =>
      intro s stop cur p h hne hlast hok
      simp only [minPath] at h
      by_cases hstop : (s == stop) = true
      · rw [if_pos hstop] at h
        obtain rfl : cur = p := by cases h; rfl
        exact ⟨hok, rfl, hne⟩
      · rw [if_neg hstop] at h
        exact runPath_sound g
          (fun d cur2 p2 hc hne2 hl2 hok2 => ih d stop cur2 p2 hc hne2 hl2 hok2)
          (getDeps g s) s stop cur p h (fun d hd => hd) hne hlast hok

/-- Every path delivered by the `all_paths` loop comes from a
`_min_path(tree, a, b)` call on one of the given pairs. -/
theorem collectPaths_mem (g : Graph) (fuel : Nat) :
    ∀ (pairs : List (String × String)) (l : List (List String)),
      collectPaths g fuel pairs = some l →
      ∀ p ∈ l, ∃ ab ∈ pairs, minPathTop g fuel ab.1 ab.2 = some (some p) := by
  intro pairs
  induction pairs with
  | nil =>
      intro l h p hp
      obtain rfl : ([] : List (List String)) = l := by cases h; rfl
      cases hp
  | cons ab rest ih =>
      intro l h p hp
      obtain ⟨a, b⟩ := ab
      simp only [collectPaths] at h
      cases hm : minPathTop g fuel a b with
      | none => rw [hm] at h; cases h
      | some r =>
          cases r with
          | none =>
              rw [hm] at h
              obtain ⟨ab2, hab2, hr⟩ := ih l h p hp
              exact ⟨ab2, List.mem_cons_of_mem _ hab2, hr⟩
          | some p0 =>
              rw [hm] at h
              cases hrest : collectPaths g fuel rest with
              | none => rw [hrest] at h; cases h
              | some l0 =>
                  rw [hrest] at h
                  obtain rfl : p0 :: l0 = l := by cases h; rfl
                  rcases List.mem_cons.mp hp with rfl | hp0
                  · exact ⟨(a, b), List.mem_cons_self _ _, hm⟩
                  · obtain ⟨ab2, hab2, hr⟩ := ih l0 hrest p hp0
                    exact ⟨ab2, List.mem_cons_of_mem _ hab2, hr⟩

/-- **C7** (forest edge validity): every edge of the forest built by
`_min_spanning_tree` is an edge of the graph — the child is among the
parent's direct dependencies. -/
theorem forest_edges_subset_graph (g : Graph) (fuel : Nat) (ms : List String)
    (F : Forest) (h : minSpanningTree g fuel ms = some F) :
    ∀ a b, (a, b) ∈ F.edges → b ∈ getDeps g a := by
  intro a b hab
  simp only [minSpanningTree] at h
  cases hc : collectPaths g fuel (allPairs ms) with
  | none => rw [hc] at h; cases h
  | some l =>
      rw [hc] at h
      obtain rfl : buildForest ms l = F := by cases h; rfl
      simp only [buildForest, List.mem_toFinset] at hab
      obtain ⟨p, hp, hep⟩ := List.mem_flatMap.mp hab
      obtain ⟨⟨x, y⟩, -, hmp⟩ := collectPaths_mem g fuel _ l hc p hp
      have := minPath_sound g fuel x y [x] p hmp (by simp) rfl
        (by intro ed hed; cases hed)
      exact this.1 (a, b) hep

/-- Witness for `forest_edges_subset_graph` at a concrete input. -/
theorem forest_edges_subset_graph_witness :
    minSpanningTree [("a", ["b", "c"]), ("b", ["d"])] 10 ["a", "b", "c", "d"] =
        some { keys := {"c", "d", "a", "b"},
               edges := {("a", "c"), ("a", "b"), ("b", "d")} } ∧
      "b" ∈ getDeps [("a", ["b", "c"]), ("b", ["d"])] "a" :=
  ⟨rfl, forest_edges_subset_graph [("a", ["b", "c"]), ("b", ["d"])] 10
    ["a", "b", "c", "d"] _ rfl "a" "b" (by decide)⟩

/-- **C8** (forest coverage): every requested module appears in the forest
mapping — the `rtn.update({x: set() for x in modules})` line puts every
requested module among the keys, isolated ones included. -/
theorem forest_covers_modules (g : Graph) (fuel : Nat) (ms : List String)
    (F : Forest) (h : minSpanningTree g fuel ms = some F) :
    ms.toFinset ⊆ F.keys := by
  simp only [minSpanningTree] at h
  cases hc : collectPaths g fuel (allPairs ms) with
  | none => rw [hc] at h; cases h
  | some l =>
      rw [hc] at h
      obtain rfl : buildForest ms l = F := by cases h; rfl
      exact Finset.subset_union_left

/-- Witness for `forest_covers_modules` at a concrete input (the isolated
module `"e"` is covered as a key as well). -/
theorem forest_covers_modules_witness :
    minSpanningTree [("a", ["b", "c"]), ("b", ["d"])] 10 ["a", "d", "e"] =
        some { keys := {"d", "e", "a", "b"},
               edges := {("a", "b"), ("b", "d")} } ∧
      (["a", "d", "e"] : List String).toFinset ⊆
        ({"d", "e", "a", "b"} : Finset String) :=
  ⟨rfl, forest_covers_modules [("a", ["b", "c"]), ("b", ["d"])] 10
    ["a", "d", "e"] _ rfl⟩

/-- A key created by the `rtn[p[i]].add(p[i+1])` loop is either the head of
its path or the target of one of the path's edges. -/
theorem pathKeys_cases :
    ∀ (p : List String) (x : String), x ∈ pathKeys p →
      p.head? = some x ∨ ∃ a, (a, x) ∈ pathEdges p := by
  intro p
  induction p with
  | nil => intro x hx; cases hx
  | cons a tl ih =>
      intro x hx
      cases tl with
      | nil => cases hx
      | cons b rest =>
          simp only [pathKeys] at hx
          rcases List.mem_cons.mp hx with rfl | hx2
          · exact Or.inl rfl
          · rcases ih x hx2 with hh | ⟨a2, ha2⟩
            · have hxb : x = b := by simpa using hh.symm
              subst hxb
              exact Or.inr ⟨a, List.mem_cons_self _ _⟩
            · exact Or.inr ⟨a2, List.mem_cons_of_mem _ ha2⟩

/-- The first component of every pair enumerated by the all-pairs loop is
a member of the module list. -/
theorem allPairs_fst_mem (ms : List String) (ab : String × String)
    (h : ab ∈ allPairs ms) : ab.1 ∈ ms := by
  simp only [allPairs, List.mem_flatMap, List.mem_map, List.mem_range] at h
  obtain ⟨i, hi, j, hj, rfl⟩ := h
  rw [List.getD_eq_getElem ms "" hi]
  exact List.getElem_mem hi

/-- **C9** (root computation): the root set computed on line 103 equals
exactly the requested modules that appear as no node's child: although the
comprehension ranges over all forest keys (intermediate path nodes
included), every non-module key lies in the interior of some found path and
is therefore some edge's target, hence never a root. -/
theorem forest_roots_eq_module_nonchildren (g : Graph) (fuel : Nat)
    (ms : List String) (F : Forest) (h : minSpanningTree g fuel ms = some F) :
    forestRoots F = ms.toFinset.filter (fun x => x ∉ F.edges.image Prod.snd) := by
  simp only [minSpanningTree] at h
  cases hc : collectPaths g fuel (allPairs ms) with
  | none => rw [hc] at h; cases h
  | some l =>
      rw [hc] at h
      obtain rfl : buildForest ms l = F := by cases h; rfl
      apply Finset.ext
      intro x
      simp only [forestRoots, Finset.mem_filter]
      constructor
      · rintro ⟨hk, hP⟩
        refine ⟨?_, hP⟩
        simp only [buildForest, Finset.mem_union, List.mem_toFinset] at hk
        rcases hk with hk | hk
        · exact List.mem_toFinset.mpr hk
        · obtain ⟨p, hp, hkp⟩ := List.mem_flatMap.mp hk
          rcases pathKeys_cases p x hkp with hh | ⟨a, ha⟩
          · obtain ⟨⟨a0, b0⟩, hab, hmp⟩ := collectPaths_mem g fuel _ l hc p hp
            have hs := minPath_sound g fuel a0 b0 [a0] p hmp (by simp) rfl
              (by intro ed hed; cases hed)
            have hx : x = a0 := by
              have := hs.2.1
              rw [hh] at this
              simpa using this
            subst hx
            exact List.mem_toFinset.mpr (allPairs_fst_mem ms (x, b0) hab)
          · exfalso
            apply hP
            apply Finset.mem_image.mpr
            refine ⟨(a, x), ?_, rfl⟩
            simp only [buildForest, List.mem_toFinset]
            exact List.mem_flatMap.mpr ⟨p, hp, ha⟩
      · rintro ⟨hm, hP⟩
        refine ⟨?_, hP⟩
        simp only [buildForest, Finset.mem_union]
        exact Or.inl hm

/-- Witness for `forest_roots_eq_module_nonchildren` at a concrete input
(the graph has an interior node `"m"` outside the requested modules). -/
theorem forest_roots_witness :
    minSpanningTree [("a", ["m"]), ("m", ["b"])] 10 ["a", "b"] =
        some { keys := {"b", "a", "m"}, edges := {("a", "m"), ("m", "b")} } ∧
      forestRoots { keys := {"b", "a", "m"},
                    edges := {("a", "m"), ("m", "b")} } =
        (["a", "b"] : List String).toFinset.filter
          (fun x => x ∉ ({("a", "m"), ("m", "b")} : Finset (String × String)).image
            Prod.snd) :=
  ⟨rfl, forest_roots_eq_module_nonchildren [("a", ["m"]), ("m", ["b"])] 10
    ["a", "b"] _ rfl⟩

/-! ## C10: the two `_min_spanning_tree` variants agree

The only difference between the variant in src/create_dependency.py and the
variants in src/tools is the commented-out `if i != j` guard: the former
also searches a path from each `ms[i]` to itself.  `_min_path(tree, a, a)`
returns the single-node path `[a]` immediately, which contributes no edges
and no keys to the forest, so the built forests coincide. -/

/-- Unfolding of `collectPaths` on a cons cell. -/
theorem collectPaths_cons (g : Graph) (fuel : Nat) (ab : String × String)
    (ps : List (String × String)) :
    collectPaths g fuel (ab :: ps) =
      match minPathTop g fuel ab.1 ab.2 with
      | none => none
      | some none => collectPaths g fuel ps
      | some (some p) =>
          match collectPaths g fuel ps with
          | none => none
          | some l => some (p :: l) := by
  obtain ⟨a, b⟩ := ab
  rfl

/-- `collectPaths` distributes over list append. -/
theorem collectPaths_append (g : Graph) (fuel : Nat) :
    ∀ xs ys, collectPaths g fuel (xs ++ ys) =
      (collectPaths g fuel xs).bind
        (fun l1 => (collectPaths g fuel ys).map (fun l2 => l1 ++ l2)) := by
  intro xs
  induction xs with
  | nil =>
      intro ys
      show collectPaths g fuel ys = (some []).bind
        (fun l1 => (collectPaths g fuel ys).map (fun l2 => l1 ++ l2))
      cases collectPaths g fuel ys <;> simp
  | cons ab rest ih =>
      intro ys
      have e1 : (ab :: rest) ++ ys = ab :: (rest ++ ys) := rfl
      rw [e1, collectPaths_cons, collectPaths_cons, ih ys]
      cases minPathTop g fuel ab.1 ab.2 with
      | none => rfl
      | some r =>
          cases r with
          | none => rfl
          | some p =>
              cases collectPaths g fuel rest with
              | none => rfl
              | some l1 =>
                  cases collectPaths g fuel ys with
                  | none => rfl
                  | some l2 => rfl

/-- A self-pair path search succeeds immediately with the single-node
path. -/
theorem minPathTop_self (g : Graph) (fuel : Nat) (hf : 1 ≤ fuel) (a : String) :
    minPathTop g fuel a a = some (some [a]) := by
  cases fuel with
  | zero => omega
  | succ fuel =>
      simp only [minPathTop, minPath]
      rw [if_pos (by simp : (a == a) = true)]

/-- The inner loop skips the diagonal element. -/
theorem filterMap_self_cons (ms : List String) (i : Nat) (js : List Nat) :
    ((i :: js).filterMap (fun j =>
        if i = j then none else some (ms.getD i "", ms.getD j ""))) =
      js.filterMap (fun j =>
        if i = j then none else some (ms.getD i "", ms.getD j "")) := by
  rw [List.filterMap_cons, if_pos rfl]

/-- Row-by-row comparison: for one fixed `i`, running the inner `j` loop
with and without the self pair yields path lists with the same edge and key
contributions. -/
theorem collectPaths_row (g : Graph) (fuel : Nat) (hf : 1 ≤ fuel)
    (ms : List String) (i : Nat) :
    ∀ js : List Nat,
      (collectPaths g fuel
          (js.map (fun j => (ms.getD i "", ms.getD j ""))) = none ∧
        collectPaths g fuel
          (js.filterMap (fun j =>
            if i = j then none else some (ms.getD i "", ms.getD j ""))) =
          none) ∨
      (∃ l1 l2,
        collectPaths g fuel
            (js.map (fun j => (ms.getD i "", ms.getD j ""))) = some l1 ∧
          collectPaths g fuel
            (js.filterMap (fun j =>
              if i = j then none else some (ms.getD i "", ms.getD j ""))) =
            some l2 ∧
          l1.flatMap pathEdges = l2.flatMap pathEdges ∧
          l1.flatMap pathKeys = l2.flatMap pathKeys) := by
  intro js
  induction js with
  | nil => exact Or.inr ⟨[], [], rfl, rfl, rfl, rfl⟩
  | cons j js ih =>
      by_cases hij : i = j
      · subst hij
        rw [List.map_cons, filterMap_self_cons, collectPaths_cons]
        simp only [minPathTop_self g fuel hf]
        rcases ih with ⟨h1, h2⟩ | ⟨l1, l2, h1, h2, he, hk⟩
        · rw [h1]
          exact Or.inl ⟨rfl, h2⟩
        · rw [h1]
          refine Or.inr ⟨[ms.getD i ""] :: l1, l2, rfl, h2, ?_, ?_⟩
          · simpa [pathEdges] using he
          · simpa [pathKeys] using hk
      · rw [List.map_cons, List.filterMap_cons, if_neg hij,
          collectPaths_cons, collectPaths_cons]
        cases hm : minPathTop g fuel (ms.getD i "") (ms.getD j "") with
        | none => exact Or.inl ⟨rfl, rfl⟩
        | some r =>
            cases r with
            | none => exact ih
            | some p =>
                rcases ih with ⟨h1, h2⟩ | ⟨l1, l2, h1, h2, he, hk⟩
                · rw [h1, h2]
                  exact Or.inl ⟨rfl, rfl⟩
                · rw [h1, h2]
                  exact Or.inr ⟨p :: l1, p :: l2, rfl, rfl,
                    by simp [he], by simp [hk]⟩

/-- Whole-loop comparison over any list of row indices. -/
theorem collectPaths_rows (g : Graph) (fuel : Nat) (hf : 1 ≤ fuel)
    (ms : List String) :
    ∀ is2 : List Nat,
      (collectPaths g fuel
          (is2.flatMap (fun i => (List.range ms.length).map
            (fun j => (ms.getD i "", ms.getD j "")))) = none ∧
        collectPaths g fuel
          (is2.flatMap (fun i => (List.range ms.length).filterMap
            (fun j =>
              if i = j then none
              else some (ms.getD i "", ms.getD j "")))) = none) ∨
      (∃ l1 l2,
        collectPaths g fuel
            (is2.flatMap (fun i => (List.range ms.length).map
              (fun j => (ms.getD i "", ms.getD j "")))) = some l1 ∧
          collectPaths g fuel
            (is2.flatMap (fun i => (List.range ms.length).filterMap
              (fun j =>
                if i = j then none
                else some (ms.getD i "", ms.getD j "")))) = some l2 ∧
          l1.flatMap pathEdges = l2.flatMap pathEdges ∧
          l1.flatMap pathKeys = l2.flatMap pathKeys) := by
  intro is2
  induction is2 with
  | nil => exact Or.inr ⟨[], [], rfl, rfl, rfl, rfl⟩
  | cons i is2 ih =>
      simp only [List.flatMap_cons, collectPaths_append]
      rcases collectPaths_row g fuel hf ms i (List.range ms.length) with
        ⟨h1, h2⟩ | ⟨l1, l2, h1, h2, he, hk⟩
      · rw [h1, h2]
        exact Or.inl ⟨rfl, rfl⟩
      · rw [h1, h2]
        rcases ih with ⟨h3, h4⟩ | ⟨t1, t2, h3, h4, he2, hk2⟩
        · rw [h3, h4]
          exact Or.inl ⟨rfl, rfl⟩
        · rw [h3, h4]
          refine Or.inr ⟨l1 ++ t1, l2 ++ t2, rfl, rfl, ?_, ?_⟩
          · simp [List.flatMap_append, he, he2]
          · simp [List.flatMap_append, hk, hk2]

/-- **C10**: the `_min_spanning_tree` variant of src/create_dependency.py
(self pairs searched, guard commented out) and the variants of src/tools
(self pairs skipped) build the same forest: the self-pair search returns
the single-node path `[a]`, which contributes no edges and no keys.  The
`1 ≤ fuel` hypothesis only reflects that the self-pair calls return (they
do so at depth 1). -/
theorem spanning_tree_variants_agree (g : Graph) (fuel : Nat)
    (ms : List String) (hf : 1 ≤ fuel) :
    minSpanningTree g fuel ms = minSpanningTreeNoSelf g fuel ms := by
  simp only [minSpanningTree, minSpanningTreeNoSelf, allPairs, allPairsNoSelf]
  rcases collectPaths_rows g fuel hf ms (List.range ms.length) with
    ⟨h1, h2⟩ | ⟨l1, l2, h1, h2, he, hk⟩
  · rw [h1, h2]
  · rw [h1, h2]
    have hb : buildForest ms l1 = buildForest ms l2 := by
      simp only [buildForest, he, hk]
    show some (buildForest ms l1) = some (buildForest ms l2)
    rw [hb]

/-- Witness for `spanning_tree_variants_agree` at a concrete input. -/
theorem spanning_tree_variants_agree_witness :
    (1 ≤ 10) ∧
      minSpanningTree [("a", ["b", "c"]), ("b", ["d"])] 10 ["a", "b", "c", "d"] =
        minSpanningTreeNoSelf [("a", ["b", "c"]), ("b", ["d"])] 10
          ["a", "b", "c", "d"] :=
  ⟨by omega,
    spanning_tree_variants_agree [("a", ["b", "c"]), ("b", ["d"])] 10
      ["a", "b", "c", "d"] (by omega)⟩

end DepTrim
